import Mathlib

/-!
# Verification of the parallel quicksort in `qsort_demo.c`

Shallow embedding of the sorting core of `brysongoad/parallel_qsort`
(`src/qsort_demo.c`): the Hoare-style `partition`, the sequential `qSort`,
and the task-parallel `qSortPar`.

Modelling conventions:

* The C `int` array is a `List Int`.  The program only compares and swaps
  elements (no arithmetic on them), so modelling C `int` values as
  unbounded integers is faithful; index arithmetic (`length / 2`, `i++`,
  `j--`) is modelled on `Nat`.
* A C function receiving the pointer `A + s` and a length `len` is
  modelled by the full list together with the pair `(s, len)`: the range
  view of the spec.  The access `(A + s)[i]` is the absolute access
  `A[(s + i)]?`.
* Every array access is `Option`-returning; an access outside the logical
  range `[0, len)` of the current call (in particular the unchecked scans
  of `partition`, which in C may in principle run past either end of the
  range) yields `none`, which propagates.  The theorems prove `none` is
  never produced, i.e. every access stays inside the range.
* The `while (true)` loop of `partition` and the recursion of the two
  sorters are given explicit fuel; the theorems prove the chosen fuel is
  never exhausted, which is the termination statement.
* OpenMP tasks (`#pragma omp task`) are modelled by executing the two
  spawned sub-sorts inline, left then right, which is sound for the final
  array contents because sibling ranges are disjoint; the number of tasks
  spawned and the sequence of `partition` calls are recorded as ghost
  data so that scheduling-related claims can be stated.  The global
  `cutoff` is passed as an explicit (`Int`-valued, since C `int` may be
  non-positive) parameter; `thread_count` is never read by `qSortPar`
  itself (it only sizes the OpenMP pool), so it appears only as an unused
  parameter of the top-level wrapper.
-/

namespace QsortDemo

/-- Total accessor used in specifications: the value at absolute index
`n`, defaulting to `0` out of range. -/
def gi (A : List Int) (n : Nat) : Int := (A[n]?).getD 0

/-- The contents of the range `(s, len)` of `A`, as a list. -/
def slice (A : List Int) (s len : Nat) : List Int := (A.drop s).take len

/-- The scan `while (A[i] < pivot) i++;` of `partition` (C line 171),
relative index `i` inside the range `(s, len)`.  Leaving the range (or
the allocation) is modelled as `none`; the scan runs on explicit fuel
(last argument), proved sufficient below. -/
def scanUp (A : List Int) (s len : Nat) (pivot : Int) : Nat → Nat → Option Nat
  | _, 0 => none
  | i, fuel + 1 =>
    if i < len then
      match A[s + i]? with
      | none => none
      | some v => if v < pivot then scanUp A s len pivot (i + 1) fuel else some i
    else none

/-- The scan `while (A[j] > pivot) j--;` of `partition` (C line 172).
Decrementing `j` below `0` (relative to the range) is modelled as
`none`; fueled like `scanUp`. -/
def scanDown (A : List Int) (s len : Nat) (pivot : Int) : Nat → Nat → Option Nat
  | _, 0 => none
  | j, fuel + 1 =>
    if j < len then
      match A[s + j]? with
      | none => none
      | some v =>
        if pivot < v then
          if j = 0 then none else scanDown A s len pivot (j - 1) fuel
        else some j
    else none

/-- The `while (true)` loop of `partition` (C lines 170-182): scan up,
scan down, return `i` if `i >= j`, otherwise swap `A[i]` and `A[j]` and
continue with `i+1`, `j-1`.  Runs on explicit fuel. -/
def partitionLoop (A : List Int) (s len : Nat) (pivot : Int) (i j : Nat) :
    Nat → Option (Nat × List Int)
  | 0 => none
  | fuel + 1 =>
    match scanUp A s len pivot i (len + 1), scanDown A s len pivot j (len + 1) with
    | some i2, some j2 =>
      if j2 ≤ i2 then some (i2, A)
      else
        match A[s + i2]?, A[s + j2]? with
        | some x, some y =>
          partitionLoop ((A.set (s + i2) y).set (s + j2) x) s len pivot
            (i2 + 1) (j2 - 1) fuel
        | _, _ => none
    | _, _ => none

/-- `partition(A + s, len)` (C lines 164-183): pivot is the element at
the midpoint of the range; then run the swap loop from `i = 0`,
`j = len - 1`.  Fuel `len + 1` is proved sufficient below. -/
def partitionR (A : List Int) (s len : Nat) : Option (Nat × List Int) :=
  match A[s + len / 2]? with
  | none => none
  | some pivot => partitionLoop A s len pivot 0 (len - 1) (len + 1)

/-- `qSort(A + s, len)` (C lines 149-156), instrumented with the sequence
of `partition` calls `(s, len)` it performs (ghost data, pre-order). -/
def qSortCore : Nat → List Int → Nat → Nat → Option (List Int × List (Nat × Nat))
  | 0, _, _, _ => none
  | fuel + 1, A, s, len =>
    if 1 < len then
      match partitionR A s len with
      | none => none
      | some (p, A1) =>
        match qSortCore fuel A1 s p with
        | none => none
        | some (A2, tr1) =>
          match qSortCore fuel A2 (s + p) (len - p) with
          | none => none
          | some (A3, tr2) => some (A3, (s, len) :: (tr1 ++ tr2))
    else some (A, [])

/-- `qSortPar(A + s, len)` (C lines 192-212) with the global `cutoff` as
an explicit parameter, instrumented with the number of OpenMP tasks
created and the sequence of `partition` calls.  When `len < cutoff` the
recursion is inline (no task); otherwise each sub-sort is spawned as a
task (two tasks), modelled as inline left-then-right execution, which is
faithful for the array contents because the two sub-ranges are
disjoint. -/
def qSortParCore (cutoff : Int) :
    Nat → List Int → Nat → Nat → Option (List Int × Nat × List (Nat × Nat))
  | 0, _, _, _ => none
  | fuel + 1, A, s, len =>
    if 1 < len then
      match partitionR A s len with
      | none => none
      | some (p, A1) =>
        if (len : Int) < cutoff then
          match qSortParCore cutoff fuel A1 s p with
          | none => none
          | some (A2, t1, tr1) =>
            match qSortParCore cutoff fuel A2 (s + p) (len - p) with
            | none => none
            | some (A3, t2, tr2) => some (A3, t1 + t2, (s, len) :: (tr1 ++ tr2))
        else
          match qSortParCore cutoff fuel A1 s p with
          | none => none
          | some (A2, t1, tr1) =>
            match qSortParCore cutoff fuel A2 (s + p) (len - p) with
            | none => none
            | some (A3, t2, tr2) =>
              some (A3, 2 + t1 + t2, (s, len) :: (tr1 ++ tr2))
    else some (A, 0, [])

/-- Top-level sequential sort: `qSort(A, length)` on the whole array.
Fuel `length + 1` is proved sufficient below. -/
def qSort (A : List Int) : Option (List Int) :=
  (qSortCore (A.length + 1) A 0 A.length).map (fun r => r.1)

/-- Top-level parallel sort: `qSortPar(A, length)` run inside a pool of
`threadCount` workers.  `threadCount` is never read by the sort itself
(it only sizes the pool in `main`), mirroring the C code. -/
def qSortPar (threadCount cutoff : Int) (A : List Int) : Option (List Int) :=
  (qSortParCore cutoff (A.length + 1) A 0 A.length).map (fun r => r.1)

/-- Ghost observation: number of tasks created by a top-level `qSortPar`. -/
def qSortParTasks (cutoff : Int) (A : List Int) : Option Nat :=
  (qSortParCore cutoff (A.length + 1) A 0 A.length).map (fun r => r.2.1)

/-- Ghost observation: the sequence of `partition` calls of `qSortPar`. -/
def qSortParTrace (cutoff : Int) (A : List Int) : Option (List (Nat × Nat)) :=
  (qSortParCore cutoff (A.length + 1) A 0 A.length).map (fun r => r.2.2)

/-- Ghost observation: the sequence of `partition` calls of `qSort`. -/
def qSortTrace (A : List Int) : Option (List (Nat × Nat)) :=
  (qSortCore (A.length + 1) A 0 A.length).map (fun r => r.2)

/-! ## Basic lemmas about `gi`, `slice` and swapping -/

theorem gi_eq {A : List Int} {n : Nat} (h : n < A.length) : A[n]? = some (gi A n) := by
  simp [gi, List.getElem?_eq_getElem h]

theorem gi_of_getElem? {A : List Int} {n : Nat} {v : Int} (h : A[n]? = some v) :
    gi A n = v := by
  simp [gi, h]

theorem length_slice {A : List Int} {s len : Nat} (h : s + len ≤ A.length) :
    (slice A s len).length = len := by
  simp [slice]
  omega

theorem slice_getElem? {A : List Int} {s len k : Nat} (hk : k < len) :
    (slice A s len)[k]? = A[s + k]? := by
  simp [slice, List.getElem?_take, hk, List.getElem?_drop]

theorem slice_getElem?_ge {A : List Int} {s len k : Nat} (hk : len ≤ k) :
    (slice A s len)[k]? = none := by
  simp [slice, List.getElem?_take, Nat.not_lt.mpr hk]

/-- Two arrays that agree at all absolute indices of a range have equal
slices there. -/
theorem slice_congr {A B : List Int} {s len : Nat}
    (h : ∀ k, k < len → A[s + k]? = B[s + k]?) :
    slice A s len = slice B s len := by
  apply List.ext_getElem?
  intro n
  by_cases hn : n < len
  · rw [slice_getElem? hn, slice_getElem? hn, h n hn]
  · rw [slice_getElem?_ge (Nat.le_of_not_lt hn), slice_getElem?_ge (Nat.le_of_not_lt hn)]

theorem mem_slice_iff {A : List Int} {s len : Nat} {x : Int} :
    x ∈ slice A s len ↔ ∃ k, k < len ∧ A[s + k]? = some x := by
  rw [List.mem_iff_getElem?]
  constructor
  · rintro ⟨n, hn⟩
    by_cases h : n < len
    · exact ⟨n, h, by rw [← slice_getElem? h]; exact hn⟩
    · rw [slice_getElem?_ge (Nat.le_of_not_lt h)] at hn
      exact absurd hn (by simp)
  · rintro ⟨k, hk, hget⟩
    exact ⟨k, by rw [slice_getElem? hk]; exact hget⟩

/-- Exchanging the values at two positions yields a permutation. -/
theorem set_set_perm {l : List Int} {i j : Nat} {x y : Int}
    (hi : l[i]? = some x) (hj : l[j]? = some y) :
    ((l.set i y).set j x).Perm l := by
  obtain ⟨hil, hxv⟩ := List.getElem?_eq_some.mp hi
  obtain ⟨hjl, hyv⟩ := List.getElem?_eq_some.mp hj
  rw [List.perm_iff_count]
  intro a
  have hjl2 : j < (l.set i y).length := by simpa using hjl
  rw [List.count_set _ _ _ _ hjl2, List.count_set _ _ _ _ hil, List.getElem_set]
  simp only [beq_iff_eq, hxv, hyv]
  have hmemx : x ∈ l := hxv ▸ List.getElem_mem hil
  have hcx : x = a → 1 ≤ l.count a := fun hxa => List.one_le_count_iff.mpr (hxa ▸ hmemx)
  by_cases hij : i = j
  · obtain rfl : x = y := by rw [hij, hj] at hi; exact (Option.some.inj hi).symm
    rw [if_pos hij]
    by_cases hxa : x = a
    · have := hcx hxa
      simp only [if_pos hxa]
      omega
    · simp only [if_neg hxa]
      omega
  · rw [if_neg hij]
    by_cases hxa : x = a <;> by_cases hya : y = a
    · have := hcx hxa
      simp only [if_pos hxa, if_pos hya]
      omega
    · have := hcx hxa
      simp only [if_pos hxa, if_neg hya]
      omega
    · simp only [if_neg hxa, if_pos hya]
      omega
    · simp only [if_neg hxa, if_neg hya]
      omega

/-! ## The two partition scans -/

/-- `scanUp` succeeds, stays inside the range, stops at the first value
`≥ pivot`, provided some value `≥ pivot` lies at or above `i`. -/
theorem scanUp_spec {A : List Int} {s len : Nat} {pivot : Int} :
    ∀ fuel i, len - i < fuel → s + len ≤ A.length →
    (∃ k, i ≤ k ∧ k < len ∧ pivot ≤ gi A (s + k)) →
    ∃ i2, scanUp A s len pivot i fuel = some i2 ∧ i ≤ i2 ∧ i2 < len ∧
      pivot ≤ gi A (s + i2) ∧ ∀ k, i ≤ k → k < i2 → gi A (s + k) < pivot := by
  intro fuel
  induction fuel with
  | zero => intro i hfu _ hstop; omega
  | succ f ih =>
    intro i hfu hA hstop
    obtain ⟨k, hik, hklen, hkpiv⟩ := hstop
    have hilen : i < len := Nat.lt_of_le_of_lt hik hklen
    have hread : A[s + i]? = some (gi A (s + i)) := gi_eq (by omega)
    by_cases hlt : gi A (s + i) < pivot
    · have hki : i ≠ k := fun h => absurd hkpiv (by rw [← h]; exact not_le.mpr hlt)
      obtain ⟨i2, heq, hge, hlt2, hpiv, hskip⟩ :=
        ih (i + 1) (by omega) hA ⟨k, by omega, hklen, hkpiv⟩
      refine ⟨i2, ?_, by omega, hlt2, hpiv, ?_⟩
      · simp only [scanUp, if_pos hilen, hread]
        rw [if_pos hlt]
        exact heq
      · intro m him hmlt
        rcases Nat.eq_or_lt_of_le him with h | h
        · rw [← h]; exact hlt
        · exact hskip m h hmlt
    · refine ⟨i, ?_, le_refl i, hilen, not_lt.mp hlt, fun k h1 h2 => by omega⟩
      simp only [scanUp, if_pos hilen, hread]
      rw [if_neg hlt]

/-- `scanDown` succeeds, stays at or below `j`, stops at the first value
`≤ pivot` from above, provided some value `≤ pivot` lies at or below
`j`. -/
theorem scanDown_spec {A : List Int} {s len : Nat} {pivot : Int} :
    ∀ fuel j, j < fuel → j < len → s + len ≤ A.length →
    (∃ m, m ≤ j ∧ gi A (s + m) ≤ pivot) →
    ∃ j2, scanDown A s len pivot j fuel = some j2 ∧ j2 ≤ j ∧
      gi A (s + j2) ≤ pivot ∧ ∀ k, j2 < k → k ≤ j → pivot < gi A (s + k) := by
  intro fuel
  induction fuel with
  | zero => intro j hfu _ _ _; omega
  | succ f ih =>
    intro j hfu hjlen hA hstop
    obtain ⟨m, hmj, hmpiv⟩ := hstop
    have hread : A[s + j]? = some (gi A (s + j)) := gi_eq (by omega)
    by_cases hgt : pivot < gi A (s + j)
    · have hmj2 : m ≠ j := fun h => absurd hmpiv (by rw [h]; exact not_le.mpr hgt)
      have hj0 : j ≠ 0 := by omega
      obtain ⟨j2, heq, hle, hpiv, hskip⟩ :=
        ih (j - 1) (by omega) (by omega) hA ⟨m, by omega, hmpiv⟩
      refine ⟨j2, ?_, by omega, hpiv, ?_⟩
      · simp only [scanDown, if_pos hjlen, hread]
        rw [if_pos hgt, if_neg hj0]
        exact heq
      · intro k hk1 hk2
        rcases Nat.eq_or_lt_of_le hk2 with h | h
        · rw [h]; exact hgt
        · exact hskip k hk1 (by omega)
    · refine ⟨j, ?_, le_refl j, not_lt.mp hgt, fun k h1 h2 => by omega⟩
      simp only [scanDown, if_pos hjlen, hread]
      rw [if_neg hgt]

/-- Setting an element inside a range commutes with taking the slice. -/
theorem slice_set {A : List Int} {s len a : Nat} {v : Int}
    (ha : a < len) (hA : s + len ≤ A.length) :
    slice (A.set (s + a) v) s len = (slice A s len).set a v := by
  apply List.ext_getElem?
  intro k
  by_cases hk : k < len
  · rw [slice_getElem? hk, List.getElem?_set, List.getElem?_set]
    have hsl : (slice A s len).length = len := length_slice hA
    by_cases hak : a = k
    · subst hak
      rw [if_pos rfl, if_pos rfl, if_pos (by omega), if_pos (by omega)]
    · rw [if_neg (by omega), if_neg hak, slice_getElem? hk]
  · rw [slice_getElem?_ge (Nat.le_of_not_lt hk),
      List.getElem?_eq_none (by rw [List.length_set, length_slice hA]; omega)]

/-! ## The partition loop invariant -/

/-- Invariant-carrying specification of the `while (true)` swap loop of
`partition`.  Under the invariants (a stopper `≥ pivot` at or above `i`,
a stopper `≤ pivot` at or below `j`, everything strictly below `i`
already `≤ pivot`, everything strictly above `j` already `≥ pivot`, and
either `i ≥ 1` or a stopper `≤ pivot` at a positive index) the loop
terminates inside the fuel, returns a split index `p` with `0 < p < len`,
separates the range into a low part `≤ pivot` and a high part `≥ pivot`,
touches nothing outside the range, and permutes the range contents. -/
theorem partitionLoop_spec {s len : Nat} {pivot : Int} :
    ∀ fuel A i j,
    len - i < fuel →
    s + len ≤ A.length →
    j < len →
    (∃ k, i ≤ k ∧ k < len ∧ pivot ≤ gi A (s + k)) →
    (∃ m, m ≤ j ∧ gi A (s + m) ≤ pivot) →
    (∀ k, k < i → gi A (s + k) ≤ pivot) →
    (∀ k, j < k → k < len → pivot ≤ gi A (s + k)) →
    (1 ≤ i ∨ ∃ m, 1 ≤ m ∧ m ≤ j ∧ gi A (s + m) ≤ pivot) →
    ∃ p A2, partitionLoop A s len pivot i j fuel = some (p, A2) ∧
      0 < p ∧ p < len ∧
      (∀ k, k < p → gi A2 (s + k) ≤ pivot) ∧
      (∀ k, p ≤ k → k < len → pivot ≤ gi A2 (s + k)) ∧
      A2.length = A.length ∧
      (∀ t, t < s ∨ s + len ≤ t → A2[t]? = A[t]?) ∧
      (slice A2 s len).Perm (slice A s len) := by
  intro fuel
  induction fuel with
  | zero => intro A i j hfu _ _ hstopU _ _ _ _; omega
  | succ f ih =>
    intro A i j hfu hA hjlen hstopU hstopD hleft hright hpos
    obtain ⟨i2, hUeq, hige, hilt, hipiv, hiskip⟩ :=
      scanUp_spec (len + 1) i (by omega) hA hstopU
    obtain ⟨j2, hDeq, hjle, hjpiv, hjskip⟩ :=
      scanDown_spec (len + 1) j (by omega) hjlen hA hstopD
    by_cases hret : j2 ≤ i2
    · -- `if (i >= j) return i;`
      have hppos : 0 < i2 := by
        rcases hpos with h1 | ⟨m, hm1, hmj, hmpiv⟩
        · omega
        · have hmj2 : m ≤ j2 := by
            by_contra hcon
            exact absurd hmpiv (not_le.mpr (hjskip m (by omega) hmj))
          omega
      refine ⟨i2, A, ?_, hppos, hilt, ?_, ?_, rfl, fun t _ => rfl, List.Perm.refl _⟩
      · simp only [partitionLoop, hUeq, hDeq]
        rw [if_pos hret]
      · intro k hk
        by_cases hki : k < i
        · exact hleft k hki
        · exact le_of_lt (hiskip k (by omega) hk)
      · intro k hk1 hk2
        by_cases hkj : j < k
        · exact hright k hkj hk2
        · by_cases hkj2 : j2 < k
          · exact le_of_lt (hjskip k hkj2 (by omega))
          · have : k = i2 := by omega
            rw [this]; exact hipiv
    · -- swap `A[i]` and `A[j]`, then continue with `i+1`, `j-1`
      have hij : i2 < j2 := not_le.mp hret
      set x := gi A (s + i2) with hxdef
      set y := gi A (s + j2) with hydef
      have hxread : A[s + i2]? = some x := gi_eq (by omega)
      have hyread : A[s + j2]? = some y := gi_eq (by omega)
      set B := (A.set (s + i2) y).set (s + j2) x with hBdef
      have hBlen : B.length = A.length := by simp [hBdef]
      have hne : s + i2 ≠ s + j2 := by omega
      have hgiB : ∀ t, t < A.length → t ≠ s + i2 → t ≠ s + j2 → gi B t = gi A t := by
        intro t htA hti htj
        unfold gi
        rw [hBdef, List.getElem?_set, if_neg (fun h => htj h.symm),
          List.getElem?_set, if_neg (fun h => hti h.symm)]
      have hgiBi : gi B (s + i2) = y := by
        unfold gi
        rw [hBdef, List.getElem?_set, if_neg (fun h => hne h.symm),
          List.getElem?_set, if_pos rfl, if_pos (by omega)]
        rfl
      have hgiBj : gi B (s + j2) = x := by
        unfold gi
        rw [hBdef, List.getElem?_set, if_pos rfl]
        rw [if_pos (by simp; omega)]
        rfl
      obtain ⟨p, A2, heq, hp0, hplen, hlow, hhigh, hlen2, hframe2, hperm2⟩ :=
        ih B (i2 + 1) (j2 - 1) (by omega) (by omega) (by omega)
          ⟨j2, by omega, by omega, by rw [hgiBj]; exact hipiv⟩
          ⟨i2, by omega, by rw [hgiBi]; exact hjpiv⟩
          (by
            intro k hk
            by_cases hki2 : k = i2
            · rw [hki2, hgiBi]; exact hjpiv
            · rw [hgiB (s + k) (by omega) (by omega) (by omega)]
              by_cases hki : k < i
              · exact hleft k hki
              · exact le_of_lt (hiskip k (by omega) (by omega)))
          (by
            intro k hk1 hk2
            by_cases hkj2 : k = j2
            · rw [hkj2, hgiBj]; exact hipiv
            · rw [hgiB (s + k) (by omega) (by omega) (by omega)]
              by_cases hkj : j < k
              · exact hright k hkj hk2
              · exact le_of_lt (hjskip k (by omega) (by omega)))
          (Or.inl (by omega))
      refine ⟨p, A2, ?_, hp0, hplen, hlow, hhigh, by rw [hlen2, hBlen], ?_, ?_⟩
      · simp only [partitionLoop, hUeq, hDeq]
        rw [if_neg hret]
        simp only [hxread, hyread]
        exact heq
      · intro t ht
        rw [hframe2 t ht, hBdef, List.getElem?_set, if_neg (by omega),
          List.getElem?_set, if_neg (by omega)]
      · have hsliceB : slice B s len = ((slice A s len).set i2 y).set j2 x := by
          have h2 : slice ((A.set (s + i2) y).set (s + j2) x) s len
              = (slice (A.set (s + i2) y) s len).set j2 x :=
            slice_set (by omega) (by simp; omega)
          show slice ((A.set (s + i2) y).set (s + j2) x) s len
              = ((slice A s len).set i2 y).set j2 x
          rw [h2, slice_set hilt hA]
        have hpermB : (slice B s len).Perm (slice A s len) := by
          rw [hsliceB]
          exact set_set_perm (by rw [slice_getElem? hilt]; exact hxread)
            (by rw [slice_getElem? (by omega)]; exact hyread)
        exact hperm2.trans hpermB

/-- Full specification of `partition` on a range of length `≥ 2` lying
inside the array: it succeeds (no access leaves the range, no fuel runs
out), the split index satisfies `0 < p < len`, values below the split
are `≤ pivot`, values from the split on are `≥ pivot`, nothing outside
the range changes, and the range contents are permuted. -/
theorem partitionR_spec {A : List Int} {s len : Nat}
    (hlen : 2 ≤ len) (hA : s + len ≤ A.length) :
    ∃ p A2, partitionR A s len = some (p, A2) ∧ 0 < p ∧ p < len ∧
      (∀ k, k < p → gi A2 (s + k) ≤ gi A (s + len / 2)) ∧
      (∀ k, p ≤ k → k < len → gi A (s + len / 2) ≤ gi A2 (s + k)) ∧
      A2.length = A.length ∧
      (∀ t, t < s ∨ s + len ≤ t → A2[t]? = A[t]?) ∧
      (slice A2 s len).Perm (slice A s len) := by
  have hmid : len / 2 < len := by omega
  have hread : A[s + len / 2]? = some (gi A (s + len / 2)) := gi_eq (by omega)
  obtain ⟨p, A2, heq, h0, h1, h2, h3, h4, h5, h6⟩ :=
    @partitionLoop_spec s len (gi A (s + len / 2)) (len + 1) A 0 (len - 1)
      (by omega) hA (by omega)
      ⟨len / 2, by omega, hmid, le_refl _⟩
      ⟨len / 2, by omega, le_refl _⟩
      (fun k hk => by omega)
      (fun k hk1 hk2 => by omega)
      (Or.inr ⟨len / 2, by omega, by omega, le_refl _⟩)
  refine ⟨p, A2, ?_, h0, h1, h2, h3, h4, h5, h6⟩
  simp only [partitionR, hread]
  exact heq

/-! ## Correctness of the sequential sorter -/

theorem gi_congr {A B : List Int} {t : Nat} (h : A[t]? = B[t]?) : gi A t = gi B t := by
  unfold gi
  rw [h]

theorem slice_append {A : List Int} {s len p : Nat} (hp : p ≤ len) :
    slice A s len = slice A s p ++ slice A (s + p) (len - p) := by
  unfold slice
  rw [show len = p + (len - p) by omega, List.take_add, List.drop_drop,
    show p + (len - p) - p = len - p by omega]

theorem sorted_of_length_le_one {l : List Int} (h : l.length ≤ 1) :
    l.Sorted (· ≤ ·) := by
  match l with
  | [] => exact List.sorted_nil
  | [a] => exact List.sorted_singleton a
  | a :: b :: t => simp at h

/-- Full specification of the (instrumented) sequential `qSort` on a
range: given enough fuel it succeeds, touches nothing outside the range,
and permutes the range contents into non-decreasing order. -/
theorem qSortCore_spec :
    ∀ fuel A s len, len < fuel → s + len ≤ A.length →
    ∃ A2 tr, qSortCore fuel A s len = some (A2, tr) ∧
      A2.length = A.length ∧
      (∀ t, t < s ∨ s + len ≤ t → A2[t]? = A[t]?) ∧
      (slice A2 s len).Perm (slice A s len) ∧
      (slice A2 s len).Sorted (· ≤ ·) := by
  intro fuel
  induction fuel with
  | zero => intro A s len h _; omega
  | succ f ih =>
    intro A s len hfu hA
    by_cases hlen : 1 < len
    · obtain ⟨p, A1, hpeq, hp0, hplen, hlow, hhigh, hlen1, hframe1, hperm1⟩ :=
        partitionR_spec (by omega) hA
      obtain ⟨A2, tr1, heq2, hlen2, hframe2, hperm2, hsort2⟩ :=
        ih A1 s p (by omega) (by omega)
      obtain ⟨A3, tr2, heq3, hlen3, hframe3, hperm3, hsort3⟩ :=
        ih A2 (s + p) (len - p) (by omega) (by omega)
      -- the right part of the range is untouched by the left recursive sort
      have hmidA2 : ∀ k, p ≤ k → k < len → A2[s + k]? = A1[s + k]? := by
        intro k hk1 hk2
        exact hframe2 (s + k) (Or.inr (by omega))
      -- the left part of the range is untouched by the right recursive sort
      have hleftA3 : slice A3 s p = slice A2 s p := by
        apply slice_congr
        intro k hk
        exact hframe3 (s + k) (Or.inl (by omega))
      have hrightA2 : slice A2 (s + p) (len - p) = slice A1 (s + p) (len - p) := by
        apply slice_congr
        intro k hk
        rw [show s + p + k = s + (p + k) by omega]
        exact hmidA2 (p + k) (by omega) (by omega)
      have hlowmem : ∀ a ∈ slice A3 s p, a ≤ gi A (s + len / 2) := by
        intro a ha
        rw [hleftA3] at ha
        rw [hperm2.mem_iff] at ha
        obtain ⟨k, hk, hget⟩ := mem_slice_iff.mp ha
        rw [← gi_of_getElem? hget]
        exact hlow k hk
      have hhighmem : ∀ b ∈ slice A3 (s + p) (len - p), gi A (s + len / 2) ≤ b := by
        intro b hb
        rw [hperm3.mem_iff, hrightA2] at hb
        obtain ⟨k, hk, hget⟩ := mem_slice_iff.mp hb
        rw [show s + p + k = s + (p + k) by omega] at hget
        rw [← gi_of_getElem? hget]
        exact hhigh (p + k) (by omega) (by omega)
      have hsplit3 : slice A3 s len = slice A3 s p ++ slice A3 (s + p) (len - p) :=
        slice_append (by omega)
      refine ⟨A3, (s, len) :: (tr1 ++ tr2), ?_, ?_, ?_, ?_, ?_⟩
      · simp only [qSortCore, if_pos hlen, hpeq, heq2, heq3]
      · rw [hlen3, hlen2, hlen1]
      · intro t ht
        rw [hframe3 t (by omega), hframe2 t (by omega), hframe1 t ht]
      · rw [hsplit3]
        have h1 : slice A1 s len = slice A1 s p ++ slice A1 (s + p) (len - p) :=
          slice_append (le_of_lt hplen)
        have hP : (slice A3 s p ++ slice A3 (s + p) (len - p)).Perm
            (slice A1 s p ++ slice A1 (s + p) (len - p)) := by
          apply List.Perm.append
          · rw [hleftA3]; exact hperm2
          · rw [← hrightA2]; exact hperm3
        exact hP.trans (h1 ▸ hperm1)
      · rw [hsplit3]
        show List.Pairwise (· ≤ ·) (slice A3 s p ++ slice A3 (s + p) (len - p))
        rw [List.pairwise_append]
        refine ⟨?_, hsort3, ?_⟩
        · rw [hleftA3]; exact hsort2
        · intro a ha b hb
          exact le_trans (hlowmem a ha) (hhighmem b hb)
    · refine ⟨A, [], ?_, rfl, fun t _ => rfl, List.Perm.refl _,
        sorted_of_length_le_one (by rw [length_slice hA]; omega)⟩
      simp only [qSortCore, if_neg hlen]

/-! ## The parallel sorter versus the sequential sorter -/

/-- Forgetting the task counter, `qSortPar` computes exactly what `qSort`
computes — same resulting array and same sequence of `partition` calls —
for every `cutoff`, on every range and with any fuel: in the model both
cutoff branches execute the same two recursive sub-sorts. -/
theorem qSortParCore_agrees (cutoff : Int) :
    ∀ fuel A s len,
    (qSortParCore cutoff fuel A s len).map (fun r => (r.1, r.2.2)) =
      qSortCore fuel A s len := by
  intro fuel
  induction fuel with
  | zero => intro A s len; rfl
  | succ f ih =>
    intro A s len
    by_cases hlen : 1 < len
    · simp only [qSortParCore, qSortCore, if_pos hlen]
      cases hp : partitionR A s len with
      | none => rfl
      | some r =>
        obtain ⟨p, A1⟩ := r
        dsimp only
        by_cases hc : (len : Int) < cutoff
        · rw [if_pos hc]
          cases hL : qSortParCore cutoff f A1 s p with
          | none => rw [← ih A1 s p, hL]; rfl
          | some rL =>
            obtain ⟨A2, t1, tr1⟩ := rL
            rw [← ih A1 s p, hL]
            simp only [Option.map_some']
            cases hR : qSortParCore cutoff f A2 (s + p) (len - p) with
            | none => rw [← ih A2 (s + p) (len - p), hR]; rfl
            | some rR =>
              obtain ⟨A3, t2, tr2⟩ := rR
              rw [← ih A2 (s + p) (len - p), hR]
              rfl
        · rw [if_neg hc]
          cases hL : qSortParCore cutoff f A1 s p with
          | none => rw [← ih A1 s p, hL]; rfl
          | some rL =>
            obtain ⟨A2, t1, tr1⟩ := rL
            rw [← ih A1 s p, hL]
            simp only [Option.map_some']
            cases hR : qSortParCore cutoff f A2 (s + p) (len - p) with
            | none => rw [← ih A2 (s + p) (len - p), hR]; rfl
            | some rR =>
              obtain ⟨A3, t2, tr2⟩ := rR
              rw [← ih A2 (s + p) (len - p), hR]
              rfl
    · simp only [qSortParCore, qSortCore, if_neg hlen]
      rfl

/-- The final array of `qSortPar` is that of `qSort`, whatever the
configuration. -/
theorem qSortPar_eq_qSort (threadCount cutoff : Int) (A : List Int) :
    qSortPar threadCount cutoff A = qSort A := by
  unfold qSortPar qSort
  rw [← qSortParCore_agrees cutoff (A.length + 1) A 0 A.length]
  cases qSortParCore cutoff (A.length + 1) A 0 A.length <;> rfl

theorem slice_all {A B : List Int} (h : B.length = A.length) :
    slice B 0 A.length = B := by
  unfold slice
  rw [List.drop_zero, ← h, List.take_length]

/-- Top-level consequence: `qSort` succeeds on every array and returns a
sorted permutation of it. -/
theorem qSort_sorts (A : List Int) :
    ∃ A2, qSort A = some A2 ∧ A2.Perm A ∧ A2.Sorted (· ≤ ·) := by
  obtain ⟨A2, tr, heq, hlen, _, hperm, hsort⟩ :=
    qSortCore_spec (A.length + 1) A 0 A.length (by omega) (by omega)
  have h1 : slice A2 0 A.length = A2 := slice_all hlen
  have h2 : slice A 0 A.length = A := slice_all rfl
  rw [h1, h2] at hperm
  rw [h1] at hsort
  refine ⟨A2, ?_, hperm, hsort⟩
  unfold qSort
  rw [heq]
  rfl

/-- Below the cutoff, `qSortPar` spawns no task at any depth and performs
exactly the partition sequence of `qSort`. -/
theorem qSortParCore_noTask {cutoff : Int} :
    ∀ (fuel : Nat) (A : List Int) (s len : Nat),
    len < fuel → s + len ≤ A.length → (len : Int) < cutoff →
    qSortParCore cutoff fuel A s len =
      (qSortCore fuel A s len).map (fun r => (r.1, 0, r.2)) := by
  intro fuel
  induction fuel with
  | zero => intro A s len h _ _; omega
  | succ f ih =>
    intro A s len hfu hA hc
    by_cases hlen : 1 < len
    · obtain ⟨p, A1, hpeq, hp0, hplen, _, _, hlen1, _, _⟩ :=
        partitionR_spec (by omega) hA
      obtain ⟨A2, tr1, heq2, hlen2, _, _, _⟩ :=
        qSortCore_spec f A1 s p (by omega) (by omega)
      obtain ⟨A3, tr2, heq3, _, _, _, _⟩ :=
        qSortCore_spec f A2 (s + p) (len - p) (by omega) (by omega)
      have ih1 : qSortParCore cutoff f A1 s p = some (A2, 0, tr1) := by
        rw [ih A1 s p (by omega) (by omega) (by omega), heq2]
        rfl
      have ih2 : qSortParCore cutoff f A2 (s + p) (len - p) = some (A3, 0, tr2) := by
        rw [ih A2 (s + p) (len - p) (by omega) (by omega) (by omega), heq3]
        rfl
      simp only [qSortParCore, qSortCore, if_pos hlen, hpeq, if_pos hc, ih1, ih2,
        heq2, heq3]
      rfl
    · simp only [qSortParCore, qSortCore, if_neg hlen]
      rfl

/-- With a non-positive cutoff every recursive call on a range of length
`> 1` takes the fork branch, so the task count is exactly twice the
number of `partition` calls. -/
theorem qSortParCore_fork {cutoff : Int} (hc : cutoff ≤ 0) :
    ∀ (fuel : Nat) (A : List Int) (s len : Nat),
    len < fuel → s + len ≤ A.length →
    ∃ A3 t tr, qSortParCore cutoff fuel A s len = some (A3, t, tr) ∧
      t = 2 * tr.length := by
  intro fuel
  induction fuel with
  | zero => intro A s len h _; omega
  | succ f ih =>
    intro A s len hfu hA
    by_cases hlen : 1 < len
    · obtain ⟨p, A1, hpeq, hp0, hplen, _, _, hlen1, _, _⟩ :=
        partitionR_spec (by omega) hA
      obtain ⟨AL, tL, trL, heqL, htL⟩ := ih A1 s p (by omega) (by omega)
      -- length is preserved by the whole left sub-sort, via agreement with `qSort`
      have hlenL : AL.length = A1.length := by
        obtain ⟨A2, tr1, heq2, hlen2, _, _, _⟩ :=
          qSortCore_spec f A1 s p (by omega) (by omega)
        have := qSortParCore_agrees cutoff f A1 s p
        rw [heqL, heq2] at this
        cases this
        exact hlen2
      obtain ⟨AR, tR, trR, heqR, htR⟩ := ih AL (s + p) (len - p) (by omega) (by omega)
      have hcfalse : ¬ ((len : Int) < cutoff) := by omega
      refine ⟨AR, 2 + tL + tR, (s, len) :: (trL ++ trR), ?_, ?_⟩
      · simp only [qSortParCore, if_pos hlen, hpeq, if_neg hcfalse, heqL, heqR]
      · simp only [List.length_cons, List.length_append]
        omega
    · exact ⟨A, 0, [], by simp only [qSortParCore, if_neg hlen], rfl⟩

/-! ## The claims -/

/-- C1: running the sequential sorter `qSort` on any array, or the
parallel sorter `qSortPar` with any valid `threadCount ≥ 1` and
`cutoff ≥ 1`, leaves the array holding a permutation of its original
contents in non-decreasing order. -/
theorem c1_sort_is_sorted_permutation (A : List Int) :
    (∃ A1, qSort A = some A1 ∧ A1.Perm A ∧ A1.Sorted (· ≤ ·)) ∧
    (∀ threadCount cutoff : Int, 1 ≤ threadCount → 1 ≤ cutoff →
      ∃ A2, qSortPar threadCount cutoff A = some A2 ∧ A2.Perm A ∧
        A2.Sorted (· ≤ ·)) := by
  refine ⟨qSort_sorts A, ?_⟩
  intro tc c htc hc
  rw [qSortPar_eq_qSort]
  exact qSort_sorts A

theorem c1_witness :
    (∃ A1, qSort [5, 3, 8, 1, 9, 2] = some A1 ∧ A1.Perm [5, 3, 8, 1, 9, 2] ∧
      A1.Sorted (· ≤ ·)) ∧
    (1 : Int) ≤ 2 ∧ (1 : Int) ≤ 1 ∧
    (∃ A2, qSortPar 2 1 [5, 3, 8, 1, 9, 2] = some A2 ∧
      A2.Perm [5, 3, 8, 1, 9, 2] ∧ A2.Sorted (· ≤ ·)) :=
  ⟨(c1_sort_is_sorted_permutation [5, 3, 8, 1, 9, 2]).1, by decide, by decide,
    (c1_sort_is_sorted_permutation [5, 3, 8, 1, 9, 2]).2 2 1 (by decide) (by decide)⟩

/-- C2: on every range of length `L > 1` handed to `partition`, the
returned split index `p` satisfies `0 < p < L`, for all integer inputs
including duplicate-heavy ones — settling the open question of spec §9
positively. -/
theorem c2_partition_progress {A : List Int} {s len : Nat}
    (hlen : 1 < len) (hA : s + len ≤ A.length) :
    ∃ p A2, partitionR A s len = some (p, A2) ∧ 0 < p ∧ p < len := by
  obtain ⟨p, A2, heq, h0, h1, _, _, _, _, _⟩ := partitionR_spec (by omega) hA
  exact ⟨p, A2, heq, h0, h1⟩

theorem c2_witness :
    1 < 4 ∧ 0 + 4 ≤ ([4, 4, 4, 4] : List Int).length ∧
    ∃ p A2, partitionR [4, 4, 4, 4] 0 4 = some (p, A2) ∧ 0 < p ∧ p < 4 :=
  ⟨by decide, by decide, c2_partition_progress (by decide) (by decide)⟩

/-- C3: both sorters terminate on every input array (the fuelled
recursion, which decreases on range length, never exhausts the fuel
`length + 1` and never returns `none`); in particular the all-duplicate
array `[4,4,4,4]` is sorted without unbounded recursion. -/
theorem c3_termination :
    (∀ A : List Int, (qSort A).isSome ∧
      ∀ threadCount cutoff : Int, (qSortPar threadCount cutoff A).isSome) ∧
    qSort [4, 4, 4, 4] = some [4, 4, 4, 4] := by
  refine ⟨fun A => ?_, by decide⟩
  obtain ⟨A2, heq, _, _⟩ := qSort_sorts A
  refine ⟨by rw [heq]; rfl, fun tc c => ?_⟩
  rw [qSortPar_eq_qSort tc c A, heq]
  rfl

/-- C4: after `partition` returns split index `p` on a range of length
`L > 1`, every element now before the split is `≤` every element now at
or after the split. -/
theorem c4_partition_ordering {A : List Int} {s len : Nat}
    (hlen : 1 < len) (hA : s + len ≤ A.length) :
    ∃ p A2, partitionR A s len = some (p, A2) ∧
      ∀ k1 k2, k1 < p → p ≤ k2 → k2 < len →
        gi A2 (s + k1) ≤ gi A2 (s + k2) := by
  obtain ⟨p, A2, heq, _, _, hlow, hhigh, _, _, _⟩ := partitionR_spec (by omega) hA
  exact ⟨p, A2, heq, fun k1 k2 hk1 hk2 hk3 =>
    le_trans (hlow k1 hk1) (hhigh k2 hk2 hk3)⟩

theorem c4_witness :
    1 < 3 ∧ 0 + 3 ≤ ([3, 1, 2] : List Int).length ∧
    ∃ p A2, partitionR [3, 1, 2] 0 3 = some (p, A2) ∧
      ∀ k1 k2, k1 < p → p ≤ k2 → k2 < 3 → gi A2 (0 + k1) ≤ gi A2 (0 + k2) :=
  ⟨by decide, by decide, c4_partition_ordering (by decide) (by decide)⟩

/-- C5 counterexample: the claim says that for `length ≤ cutoff` no task
is ever created, but the code only recurses inline when
`length < cutoff` (C line 198); at `length = cutoff = 2` the top call
takes the fork branch and creates two tasks. -/
theorem c5_counterexample :
    ((([1, 2] : List Int).length : Int) ≤ 2 ∧
      qSortParTasks 2 [1, 2] = some 2) ∧
    qSortParTasks 2 [1, 2] ≠ some 0 := by decide

/-- C5 (amended): for every array whose length is strictly less than the
cutoff, `qSortPar` degenerates to pure sequential recursion: no task is
created at any depth and the partition sequence equals `qSort`'s.  (The
original claim said "less than or equal", but at `length = cutoff` the
code forks.) -/
theorem c5_no_task_below_cutoff (A : List Int) (cutoff : Int)
    (h : (A.length : Int) < cutoff) :
    qSortParTasks cutoff A = some 0 ∧
    qSortParTrace cutoff A = qSortTrace A := by
  have hnt := qSortParCore_noTask (A.length + 1) A 0 A.length (by omega) (by omega) h
  unfold qSortParTasks qSortParTrace qSortTrace
  rw [hnt]
  obtain ⟨A2, tr, heq, _, _, _, _⟩ :=
    qSortCore_spec (A.length + 1) A 0 A.length (by omega) (by omega)
  rw [heq]
  exact ⟨rfl, rfl⟩

theorem c5_witness :
    ((([2, 1] : List Int).length : Int) < 3) ∧
    (qSortParTasks 3 [2, 1] = some 0 ∧ qSortParTrace 3 [2, 1] = qSortTrace [2, 1]) :=
  ⟨by decide, c5_no_task_below_cutoff [2, 1] 3 (by decide)⟩

/-- C6: the final array contents of `qSortPar` are the same for every
valid configuration and equal those of `qSort`: the configuration only
affects scheduling. -/
theorem c6_result_config_independent (A : List Int)
    (t1 c1 t2 c2 : Int) (h1 : 1 ≤ t1) (h2 : 1 ≤ c1) (h3 : 1 ≤ t2) (h4 : 1 ≤ c2) :
    qSortPar t1 c1 A = qSortPar t2 c2 A ∧ qSortPar t1 c1 A = qSort A := by
  rw [qSortPar_eq_qSort, qSortPar_eq_qSort]
  exact ⟨rfl, rfl⟩

theorem c6_witness :
    (1 : Int) ≤ 4 ∧ (1 : Int) ≤ 1 ∧ (1 : Int) ≤ 1 ∧ (1 : Int) ≤ 3 ∧
    (qSortPar 4 1 [9, 8, 7, 6, 5] = qSortPar 1 3 [9, 8, 7, 6, 5] ∧
      qSortPar 4 1 [9, 8, 7, 6, 5] = qSort [9, 8, 7, 6, 5]) :=
  ⟨by decide, by decide, by decide, by decide,
    c6_result_config_independent [9, 8, 7, 6, 5] 4 1 1 3
      (by decide) (by decide) (by decide) (by decide)⟩

/-- C7: the program performs no configuration validation: for any
non-positive cutoff no configuration error is produced, `qSortPar` still
runs — always taking the fork branch, witnessed by the task count being
exactly twice the number of partition calls — and still sorts the
array. -/
theorem c7_no_validation_nonpositive_cutoff (A : List Int)
    (threadCount cutoff : Int) (hc : cutoff ≤ 0) :
    ∃ A2, qSortPar threadCount cutoff A = some A2 ∧ A2.Perm A ∧
      A2.Sorted (· ≤ ·) ∧
      ∃ t tr, qSortParTasks cutoff A = some t ∧
        qSortParTrace cutoff A = some tr ∧ t = 2 * tr.length := by
  obtain ⟨A2, heq, hperm, hsort⟩ := qSort_sorts A
  obtain ⟨A3, t, tr, heqP, ht⟩ :=
    qSortParCore_fork hc (A.length + 1) A 0 A.length (by omega) (by omega)
  refine ⟨A2, by rw [qSortPar_eq_qSort]; exact heq, hperm, hsort, t, tr, ?_, ?_, ht⟩
  · unfold qSortParTasks
    rw [heqP]
    rfl
  · unfold qSortParTrace
    rw [heqP]
    rfl

theorem c7_witness :
    (0 : Int) ≤ 0 ∧
    ∃ A2, qSortPar 1 0 [3, 1] = some A2 ∧ A2.Perm [3, 1] ∧
      A2.Sorted (· ≤ ·) ∧
      ∃ t tr, qSortParTasks 0 [3, 1] = some t ∧
        qSortParTrace 0 [3, 1] = some tr ∧ t = 2 * tr.length :=
  ⟨by decide, c7_no_validation_nonpositive_cutoff [3, 1] 1 0 (by decide)⟩

/-- C8: sorting is idempotent: an already-sorted array (including lengths
0 and 1) is returned unchanged by `qSort` and by `qSortPar` under any
valid configuration. -/
theorem c8_idempotent (A : List Int) (hs : A.Sorted (· ≤ ·)) :
    qSort A = some A ∧
    ∀ threadCount cutoff : Int, 1 ≤ threadCount → 1 ≤ cutoff →
      qSortPar threadCount cutoff A = some A := by
  obtain ⟨A2, heq, hperm, hsort⟩ := qSort_sorts A
  have hAA : A2 = A := List.eq_of_perm_of_sorted hperm hsort hs
  subst hAA
  exact ⟨heq, fun tc c _ _ => by rw [qSortPar_eq_qSort]; exact heq⟩

theorem c8_witness :
    ([1, 2, 3] : List Int).Sorted (· ≤ ·) ∧ (1 : Int) ≤ 2 ∧ (1 : Int) ≤ 5 ∧
    qSort [1, 2, 3] = some [1, 2, 3] ∧ qSortPar 2 5 [1, 2, 3] = some [1, 2, 3] :=
  ⟨by decide, by decide, by decide, (c8_idempotent [1, 2, 3] (by decide)).1,
    (c8_idempotent [1, 2, 3] (by decide)).2 2 5 (by decide) (by decide)⟩

/-- C9: `partition` on a range mutates only elements inside the range —
the enclosing array outside it is bitwise unchanged — and the multiset of
values inside the range is preserved. -/
theorem c9_partition_frame {A : List Int} {s len : Nat}
    (hlen : 1 < len) (hA : s + len ≤ A.length) :
    ∃ p A2, partitionR A s len = some (p, A2) ∧ A2.length = A.length ∧
      (∀ t, t < s ∨ s + len ≤ t → A2[t]? = A[t]?) ∧
      (slice A2 s len).Perm (slice A s len) := by
  obtain ⟨p, A2, heq, _, _, _, _, h5, h6, h7⟩ := partitionR_spec (by omega) hA
  exact ⟨p, A2, heq, h5, h6, h7⟩

theorem c9_witness :
    1 < 3 ∧ 1 + 3 ≤ ([9, 3, 1, 2, 7] : List Int).length ∧
    ∃ p A2, partitionR [9, 3, 1, 2, 7] 1 3 = some (p, A2) ∧
      A2.length = ([9, 3, 1, 2, 7] : List Int).length ∧
      (∀ t, t < 1 ∨ 1 + 3 ≤ t → A2[t]? = ([9, 3, 1, 2, 7] : List Int)[t]?) ∧
      (slice A2 1 3).Perm (slice [9, 3, 1, 2, 7] 1 3) :=
  ⟨by decide, by decide, c9_partition_frame (by decide) (by decide)⟩

/-- C10: on a range of length `≥ 2` inside the array, every access made
by `partition` is in bounds: in this total embedding, where any
out-of-range access or fuel exhaustion yields `none`, the result is
`isSome`. -/
theorem c10_partition_in_bounds {A : List Int} {s len : Nat}
    (hlen : 2 ≤ len) (hA : s + len ≤ A.length) :
    (partitionR A s len).isSome := by
  obtain ⟨p, A2, heq, _⟩ := partitionR_spec hlen hA
  rw [heq]
  rfl

theorem c10_witness :
    2 ≤ 5 ∧ 0 + 5 ≤ ([7, 7, 7, 1, 7] : List Int).length ∧
    (partitionR [7, 7, 7, 1, 7] 0 5).isSome :=
  ⟨by decide, by decide, c10_partition_in_bounds (by decide) (by decide)⟩


end QsortDemo
